import Mathlib

/-!
Verification of the rtlobs streaming acquisition-and-integration core.
The repository ships its observing notebook and documentation under src; the
collect, calibrate and post-process modules themselves are not present there,
so each component (Calibrator, PowerIntegrator, SpectralAccumulator, Folder,
SwitchScheduler) is modelled from the specification, with all numeric values
embedded as exact rationals.
-/

/-- Complex baseband sample (in-phase, quadrature), with exact rational
components. -/
structure Qc where
  re : ℚ
  im : ℚ
deriving DecidableEq

instance : Add Qc := ⟨fun x y => ⟨x.re + y.re, x.im + y.im⟩⟩

instance : Mul Qc := ⟨fun x y => ⟨x.re * y.re - x.im * y.im, x.re * y.im + x.im * y.re⟩⟩

instance : Zero Qc := ⟨⟨0, 0⟩⟩

instance : One Qc := ⟨⟨1, 0⟩⟩

/-- Squared magnitude of a complex sample. -/
def Qc.normSq (z : Qc) : ℚ := z.re * z.re + z.im * z.im

/-- Modelled from the spec: `CalibrationResult` of the Calibrator (§4.5);
the calibrate module is not present under src. -/
structure CalibrationResult where
  t_sys : ℚ
  y_factor : ℚ
deriving DecidableEq

/-- Modelled from the spec: `y_factor_cal` (Calibrator, §4.5); the calibrate
module is not present under src.  y = p_hot / p_cold and
t_sys = (t_hot - y * t_cold) / (y - 1), succeeding exactly when
p_hot > p_cold > 0 and failing with a domain error (`none`) otherwise. -/
def y_factor_cal (p_hot p_cold t_hot t_cold : ℚ) : Option CalibrationResult :=
  if 0 < p_cold ∧ p_cold < p_hot then
    let y := p_hot / p_cold
    some ⟨(t_hot - y * t_cold) / (y - 1), y⟩
  else
    none

/-- C1: for p_hot > p_cold > 0, y_factor_cal returns y_factor = p_hot / p_cold
and t_sys = (t_hot - y * t_cold) / (y - 1); in particular at
(400, 100, 300, 10) it returns y = 4 and t_sys = 260 / 3 exactly. -/
theorem y_factor_cal_formula :
    (∀ p_hot p_cold t_hot t_cold : ℚ, 0 < p_cold → p_cold < p_hot →
      y_factor_cal p_hot p_cold t_hot t_cold =
        some ⟨(t_hot - (p_hot / p_cold) * t_cold) / (p_hot / p_cold - 1),
              p_hot / p_cold⟩) ∧
    y_factor_cal 400 100 300 10 = some ⟨260 / 3, 4⟩ := by
  constructor
  · intro ph pc th tc hpc hlt
    simp [y_factor_cal, hpc, hlt]
  · norm_num [y_factor_cal]

/-- Concrete instance of C1 at (400, 100, 300, 10). -/
theorem y_factor_cal_formula_witness :
    (0 : ℚ) < 100 ∧ (100 : ℚ) < 400 ∧
      y_factor_cal 400 100 300 10 =
        some ⟨(300 - (400 / 100 : ℚ) * 10) / ((400 / 100 : ℚ) - 1), 400 / 100⟩ :=
  ⟨by norm_num, by norm_num,
    y_factor_cal_formula.1 400 100 300 10 (by norm_num) (by norm_num)⟩

/-- C5: y_factor_cal succeeds (produces a CalibrationResult) exactly when
p_hot > p_cold > 0, and fails with a domain error for every other input. -/
theorem y_factor_cal_domain (p_hot p_cold t_hot t_cold : ℚ) :
    (y_factor_cal p_hot p_cold t_hot t_cold).isSome ↔
      (0 < p_cold ∧ p_cold < p_hot) := by
  by_cases h : 0 < p_cold ∧ p_cold < p_hot <;> simp [y_factor_cal, h]

/-- Modelled from the spec: `PowerEstimate` (§3); the collect module is not
present under src. -/
structure PowerEstimate where
  mean_power : ℚ
  samples_integrated : ℕ
  elapsed : ℚ
deriving DecidableEq

/-- Running state of the total-power integration loop: running mean power,
number of samples integrated so far, measured elapsed wall-clock time. -/
structure IntState where
  mean : ℚ
  count : ℕ
  elapsed : ℚ
deriving DecidableEq

/-- Modelled from the spec: one iteration of the PowerIntegrator loop (§4.1):
compute the mean of the squared magnitudes over the block and fold it into the
running mean weighted by block sample count; elapsed time is measured around
the acquisition call itself (dt), not estimated from the sample rate. -/
def integrateStep (st : IntState) (b : List Qc) (dt : ℚ) : IntState :=
  { mean := (st.mean * st.count + ((b.map Qc.normSq).sum / b.length) * b.length) /
      (st.count + b.length),
    count := st.count + b.length,
    elapsed := st.elapsed + dt }

/-- Modelled from the spec: `integrate_total_power` (PowerIntegrator, §4.1);
the collect module is not present under src.  The device trace is a finite
list of (block, wall-clock time of the acquisition call) pairs; each block is
fully incorporated before the elapsed-time check, and the loop exits at the
first block boundary at which elapsed ≥ duration.  `none` means the trace
ended before the requested duration had elapsed. -/
def integrate_total_power (duration : ℚ) :
    IntState → List (List Qc × ℚ) → Option PowerEstimate
  | _, [] => none
  | st, (b, dt) :: rest =>
    if duration ≤ (integrateStep st b dt).elapsed then
      some ⟨(integrateStep st b dt).mean, (integrateStep st b dt).count,
            (integrateStep st b dt).elapsed⟩
    else
      integrate_total_power duration (integrateStep st b dt) rest

lemma integrate_some_elapsed (d : ℚ) :
    ∀ (blocks : List (List Qc × ℚ)) (st : IntState) (est : PowerEstimate),
      integrate_total_power d st blocks = some est → d ≤ est.elapsed := by
  intro blocks
  induction blocks with
  | nil =>
    intro st est h
    simp [integrate_total_power] at h
  | cons hd tl ih =>
    intro st est h
    obtain ⟨b, dt⟩ := hd
    simp only [integrate_total_power] at h
    split at h
    next hcond =>
      rw [Option.some_inj] at h
      subst h
      exact hcond
    next hcond =>
      exact ih _ _ h

/-- C2: for every requested duration d > 0, the total-power loop returns only
at a block boundary once the measured elapsed time meets the duration, so the
elapsed time reported in the returned PowerEstimate is always ≥ d. -/
theorem integrate_total_power_elapsed_ge (d : ℚ) (blocks : List (List Qc × ℚ))
    (est : PowerEstimate) (hd : 0 < d)
    (h : integrate_total_power d ⟨0, 0, 0⟩ blocks = some est) :
    d ≤ est.elapsed :=
  integrate_some_elapsed d blocks ⟨0, 0, 0⟩ est h

/-- Concrete instance of C2: a single one-sample block taking 2 seconds meets
a 1-second requested duration. -/
theorem integrate_total_power_elapsed_ge_witness :
    (0 : ℚ) < 1 ∧ (1 : ℚ) ≤ (PowerEstimate.mk 1 1 2).elapsed :=
  ⟨by norm_num,
    integrate_total_power_elapsed_ge 1 [([⟨1, 0⟩], 2)] ⟨1, 1, 2⟩ (by norm_num)
      (by norm_num [integrate_total_power, integrateStep, Qc.normSq])⟩

lemma integrate_count_lt (d : ℚ) :
    ∀ (blocks : List (List Qc × ℚ)) (st : IntState) (est : PowerEstimate),
      (∀ x ∈ blocks, x.1 ≠ []) →
      integrate_total_power d st blocks = some est →
      st.count < est.samples_integrated := by
  intro blocks
  induction blocks with
  | nil =>
    intro st est hne h
    simp [integrate_total_power] at h
  | cons hd tl ih =>
    intro st est hne h
    obtain ⟨b, dt⟩ := hd
    have hb : b ≠ [] := hne (b, dt) (List.mem_cons_self _ _)
    have hlen : 0 < b.length := List.length_pos.mpr hb
    simp only [integrate_total_power] at h
    split at h
    next hcond =>
      rw [Option.some_inj] at h
      subst h
      show st.count < (integrateStep st b dt).count
      simp only [integrateStep]
      omega
    next hcond =>
      have h1 := ih (integrateStep st b dt) est
        (fun x hx => hne x (List.mem_cons_of_mem _ hx)) h
      simp only [integrateStep] at h1
      omega

/-- C10: on every successful return of integrate_total_power (with every
device read yielding at least one sample), the returned PowerEstimate has
samples_integrated > 0. -/
theorem integrate_total_power_samples_pos (d : ℚ) (blocks : List (List Qc × ℚ))
    (est : PowerEstimate) (hne : ∀ x ∈ blocks, x.1 ≠ [])
    (h : integrate_total_power d ⟨0, 0, 0⟩ blocks = some est) :
    0 < est.samples_integrated :=
  integrate_count_lt d blocks ⟨0, 0, 0⟩ est hne h

/-- Concrete instance of C10. -/
theorem integrate_total_power_samples_pos_witness :
    0 < (PowerEstimate.mk 4 1 3).samples_integrated :=
  integrate_total_power_samples_pos 2 [([⟨2, 0⟩], 3)] ⟨4, 1, 3⟩
    (by simp) (by norm_num [integrate_total_power, integrateStep, Qc.normSq])

lemma integrate_consumed (d : ℚ) :
    ∀ (blocks : List (List Qc × ℚ)) (st : IntState) (est : PowerEstimate),
      integrate_total_power d st blocks = some est →
      ∃ p q, blocks = p ++ q ∧
        est.samples_integrated = st.count + (p.map (fun x => x.1.length)).sum ∧
        est.elapsed = st.elapsed + (p.map (fun x => x.2)).sum := by
  intro blocks
  induction blocks with
  | nil =>
    intro st est h
    simp [integrate_total_power] at h
  | cons hd tl ih =>
    intro st est h
    obtain ⟨b, dt⟩ := hd
    simp only [integrate_total_power] at h
    split at h
    next hcond =>
      rw [Option.some_inj] at h
      subst h
      exact ⟨[(b, dt)], tl, rfl, by simp [integrateStep], by simp [integrateStep]⟩
    next hcond =>
      obtain ⟨p, q, hpq, hcount, helap⟩ := ih (integrateStep st b dt) est h
      refine ⟨(b, dt) :: p, q, by rw [hpq, List.cons_append], ?_, ?_⟩
      · simp only [integrateStep] at hcount
        simp only [List.map_cons, List.sum_cons]
        omega
      · simp only [integrateStep] at helap
        simp only [List.map_cons, List.sum_cons]
        linarith
  
/-- Modelled from the spec: the incremental running-mean update of the
PowerIntegrator (§4.1) on per-sample values: the block mean is folded into the
running mean weighted by block sample count. -/
def runningMeanStep (st : ℚ × ℕ) (b : List ℚ) : ℚ × ℕ :=
  ((st.1 * st.2 + (b.sum / b.length) * b.length) / (st.2 + b.length),
   st.2 + b.length)

/-- Scalar running mean over a sequence of sample blocks, starting empty. -/
def runningMean (blocks : List (List ℚ)) : ℚ × ℕ :=
  blocks.foldl runningMeanStep (0, 0)

/-- Modelled from the spec: the bin-wise vector running-mean update of the
SpectralAccumulator (§4.2): the count counts periodograms folded in, each new
periodogram entering with weight one. -/
def vecMeanStep {L : ℕ} (st : (Fin L → ℚ) × ℕ) (p : Fin L → ℚ) :
    (Fin L → ℚ) × ℕ :=
  (fun i => (st.1 i * st.2 + p i) / (st.2 + 1), st.2 + 1)

/-- Vector running mean over a sequence of periodograms, starting empty. -/
def vecMean {L : ℕ} (ps : List (Fin L → ℚ)) : (Fin L → ℚ) × ℕ :=
  ps.foldl vecMeanStep (fun _ => 0, 0)

lemma blockMean_mul (b : List ℚ) :
    (b.sum / (b.length : ℚ)) * (b.length : ℚ) = b.sum := by
  rcases eq_or_ne b.length 0 with h | h
  · have hb : b = [] := List.length_eq_zero.mp h
    subst hb
    simp
  · have hq : ((b.length : ℚ)) ≠ 0 := by exact_mod_cast h
    field_simp

lemma runningMeanStep_prod (st : ℚ × ℕ) (b : List ℚ) :
    (runningMeanStep st b).1 * (((runningMeanStep st b).2 : ℕ) : ℚ) =
      st.1 * st.2 + b.sum := by
  simp only [runningMeanStep]
  push_cast
  rcases Nat.eq_zero_or_pos (st.2 + b.length) with h0 | hpos
  · have hc : st.2 = 0 := by omega
    have hl : b.length = 0 := by omega
    have hb : b = [] := List.length_eq_zero.mp hl
    subst hb
    simp [hc]
  · have hne : ((st.2 : ℚ) + (b.length : ℚ)) ≠ 0 := by
      have hq : (0 : ℚ) < (st.2 : ℚ) + (b.length : ℚ) := by exact_mod_cast hpos
      linarith
    rw [blockMean_mul, div_mul_cancel₀ _ hne]

lemma runningMean_foldl (blocks : List (List ℚ)) :
    ∀ st : ℚ × ℕ,
      (blocks.foldl runningMeanStep st).2 = st.2 + (blocks.map List.length).sum ∧
      (blocks.foldl runningMeanStep st).1 *
          (((blocks.foldl runningMeanStep st).2 : ℕ) : ℚ) =
        st.1 * st.2 + blocks.flatten.sum := by
  induction blocks with
  | nil =>
    intro st
    simp
  | cons b bs ih =>
    intro st
    simp only [List.foldl_cons, List.map_cons, List.sum_cons, List.flatten_cons,
      List.sum_append]
    obtain ⟨ih1, ih2⟩ := ih (runningMeanStep st b)
    constructor
    · rw [ih1]
      simp only [runningMeanStep]
      omega
    · rw [ih2, runningMeanStep_prod]
      ring

lemma vecMean_foldl {L : ℕ} (ps : List (Fin L → ℚ)) :
    ∀ st : (Fin L → ℚ) × ℕ,
      (ps.foldl vecMeanStep st).2 = st.2 + ps.length ∧
      ∀ i, (ps.foldl vecMeanStep st).1 i *
          (((ps.foldl vecMeanStep st).2 : ℕ) : ℚ) =
        st.1 i * st.2 + (ps.map (fun p => p i)).sum := by
  induction ps with
  | nil =>
    intro st
    simp
  | cons p ps ih =>
    intro st
    simp only [List.foldl_cons, List.length_cons, List.map_cons, List.sum_cons]
    obtain ⟨ih1, ih2⟩ := ih (vecMeanStep st p)
    refine ⟨?_, ?_⟩
    · rw [ih1]
      simp only [vecMeanStep]
      omega
    · intro i
      have hstep : (vecMeanStep st p).1 i * (((vecMeanStep st p).2 : ℕ) : ℚ) =
          st.1 i * st.2 + p i := by
        simp only [vecMeanStep]
        push_cast
        have hne : ((st.2 : ℚ) + 1) ≠ 0 := by positivity
        rw [div_mul_cancel₀ _ hne]
      rw [ih2 i, hstep]
      ring

/-- C3: the incremental weighted running-mean update, applied block by block,
equals the direct mean over the concatenation of all blocks — exactly, in
rational arithmetic — both for the scalar mean of the PowerIntegrator and for
the bin-wise vector mean of the SpectralAccumulator. -/
theorem running_mean_eq_direct_mean :
    (∀ blocks : List (List ℚ), blocks ≠ [] → (∀ b ∈ blocks, b ≠ []) →
      (runningMean blocks).1 =
        blocks.flatten.sum / ((blocks.flatten.length : ℕ) : ℚ)) ∧
    (∀ (L : ℕ) (ps : List (Fin L → ℚ)), ps ≠ [] → ∀ i,
      (vecMean ps).1 i = (ps.map (fun p => p i)).sum / ((ps.length : ℕ) : ℚ)) := by
  constructor
  · intro blocks hne hall
    obtain ⟨h1, h2⟩ := runningMean_foldl blocks (0, 0)
    have hN : blocks.flatten.length = (blocks.map List.length).sum :=
      List.length_flatten blocks
    have hfix : (blocks.foldl runningMeanStep (0, 0)).2 = blocks.flatten.length := by
      rw [h1, hN]
      simp
    have hpos : 0 < blocks.flatten.length := by
      obtain ⟨b, bs, rfl⟩ := List.exists_cons_of_ne_nil hne
      have hb : b ≠ [] := hall b (List.mem_cons_self _ _)
      have hlb : 0 < b.length := List.length_pos.mpr hb
      simp only [List.flatten_cons, List.length_append]
      omega
    have hcast : ((blocks.flatten.length : ℕ) : ℚ) ≠ 0 := by
      exact_mod_cast hpos.ne'
    simp only [runningMean]
    rw [eq_div_iff hcast, ← hfix]
    simpa using h2
  · intro L ps hne i
    obtain ⟨h1, h2⟩ := vecMean_foldl ps (fun _ => 0, 0)
    have hfix : (ps.foldl vecMeanStep (fun _ => 0, 0)).2 = ps.length := by
      rw [h1]
      simp
    have hcast : ((ps.length : ℕ) : ℚ) ≠ 0 := by
      have hp : 0 < ps.length := List.length_pos.mpr hne
      exact_mod_cast hp.ne'
    simp only [vecMean]
    rw [eq_div_iff hcast, ← hfix]
    simpa using h2 i

/-- Concrete instance of C3: two blocks [1, 2] and [3] have incremental mean
equal to the direct mean 2, and a two-periodogram vector mean at bin 0. -/
theorem running_mean_eq_direct_mean_witness :
    ((runningMean [[1, 2], [3]]).1 =
      ([[1, 2], [3]] : List (List ℚ)).flatten.sum /
        ((([[1, 2], [3]] : List (List ℚ)).flatten.length : ℕ) : ℚ)) ∧
    (vecMean [fun _ => (1 : ℚ), fun _ => (3 : ℚ)]).1 (0 : Fin 2) =
      (([fun _ => (1 : ℚ), fun _ => (3 : ℚ)] : List (Fin 2 → ℚ)).map
          (fun p => p (0 : Fin 2))).sum /
        ((([fun _ => (1 : ℚ), fun _ => (3 : ℚ)] : List (Fin 2 → ℚ)).length : ℕ) : ℚ) :=
  ⟨running_mean_eq_direct_mean.1 [[1, 2], [3]] (by simp) (by simp),
   running_mean_eq_direct_mean.2 2 [fun _ => (1 : ℚ), fun _ => (3 : ℚ)]
     (by simp) (0 : Fin 2)⟩

/-- Sum of a list of complex samples. -/
def Qc.sumList (l : List Qc) : Qc := l.foldr (· + ·) 0

/-- Natural power of a complex sample. -/
def Qc.npow (z : Qc) : ℕ → Qc
  | 0 => 1
  | n + 1 => z * Qc.npow z n

/-- Modelled from the spec: the discrete Fourier transform underlying the
SpectralAccumulator periodogram (§4.2), parametrized by the transform kernel
root w (the true transform takes w at the primitive N-th root of unity);
the collect module is not present under src.  Bin k is the sum over n of
x[n] * w^(k*n). -/
def dftBin (w : Qc) (x : List Qc) (k : ℕ) : Qc :=
  Qc.sumList ((List.range x.length).map (fun n => x.getD n 0 * Qc.npow w (k * n)))

/-- Modelled from the spec: the per-segment periodogram of the
SpectralAccumulator (§4.2): magnitude-squared of the discrete Fourier
transform, normalized by fft_length, frequency-shifted so that output bin k
reads raw bin (k + nf / 2) mod nf, putting bin 0 at center_freq - rate / 2. -/
def periodogram (nf : ℕ) (w : Qc) (x : List Qc) : Fin nf → ℚ :=
  fun k => (dftBin w x ((k.val + nf / 2) % nf)).normSq / nf

/-- Modelled from the spec: the frequency axis of a Periodogram (§3, §4.2):
bin 0 maps to center_freq - sample_rate / 2, ascending in steps of one bin
width sample_rate / nf. -/
def freqAxis (nf : ℕ) (rate center : ℚ) : Fin nf → ℚ :=
  fun k => center - rate / 2 + k.val * (rate / nf)

/-- Modelled from the spec: segmentation of one sample block by the
SpectralAccumulator (§4.2): the block is split into floor(len / nf) full
segments of length nf; the final partial segment is discarded, not
zero-padded. -/
def segmentBlock (nf : ℕ) (b : List Qc) : List (List Qc) :=
  (List.range (b.length / nf)).map (fun k => (b.drop (k * nf)).take nf)

/-- Modelled from the spec: the SpectralAccumulator step `feed` (§4.2): each
full segment of the block yields one independent periodogram, folded into the
bin-wise running mean. -/
def feed (nf : ℕ) (w : Qc) (st : (Fin nf → ℚ) × ℕ) (b : List Qc) :
    (Fin nf → ℚ) × ℕ :=
  ((segmentBlock nf b).map (periodogram nf w)).foldl vecMeanStep st

/-- Modelled from the spec: `accumulate` (SpectralAccumulator, §4.2); the
collect module is not present under src.  Returns the frequency axis, the
running mean spectrum and the number of periodograms folded in, over a finite
trace of sample blocks. -/
def accumulate (nf : ℕ) (w : Qc) (rate center : ℚ) (blocks : List (List Qc)) :
    (Fin nf → ℚ) × (Fin nf → ℚ) × ℕ :=
  (freqAxis nf rate center,
   (blocks.foldl (feed nf w) (fun _ => 0, 0)).1,
   (blocks.foldl (feed nf w) (fun _ => 0, 0)).2)

/-- The direct single-block computation of the spec (§8, third testable
property): the periodogram of the whole block together with its frequency
axis, with no accumulation machinery. -/
def directSpectrum (nf : ℕ) (w : Qc) (rate center : ℚ) (b : List Qc) :
    (Fin nf → ℚ) × (Fin nf → ℚ) :=
  (freqAxis nf rate center, periodogram nf w b)

lemma segmentBlock_self (nf : ℕ) (b : List Qc) (hpos : 0 < nf)
    (hlen : b.length = nf) : segmentBlock nf b = [b] := by
  have htake : b.take nf = b := by
    rw [← hlen]
    exact List.take_length b
  unfold segmentBlock
  rw [hlen, Nat.div_self hpos]
  simp [List.range_succ, htake]

lemma segmentBlock_join (nf : ℕ) (b : List Qc) :
    ∀ m, m * nf ≤ b.length →
      ((List.range m).map (fun k => (b.drop (k * nf)).take nf)).flatten =
        b.take (m * nf) := by
  intro m
  induction m with
  | zero =>
    intro h
    simp
  | succ m ih =>
    intro h
    rw [Nat.succ_mul] at h ⊢
    rw [List.range_succ, List.map_append, List.flatten_append,
      ih (by omega), List.take_add]
    simp

lemma segmentBlock_full (nf : ℕ) (b : List Qc) (hpos : 0 < nf) :
    ∀ s ∈ segmentBlock nf b, s.length = nf := by
  intro s hs
  unfold segmentBlock at hs
  obtain ⟨k, hk, rfl⟩ := List.mem_map.mp hs
  rw [List.mem_range] at hk
  have h1 : (k + 1) * nf ≤ b.length / nf * nf :=
    Nat.mul_le_mul_right nf (by omega)
  have h2 : b.length / nf * nf ≤ b.length := Nat.div_mul_le_self _ _
  rw [Nat.succ_mul] at h1
  simp only [List.length_take, List.length_drop]
  omega

/-- C8: for a block longer than fft_length nf, the SpectralAccumulator splits
the block into floor(len / nf) full segments of length nf each, produces one
periodogram per full segment (the feed count advances by exactly that
number), and the final partial segment is discarded, never zero-padded: the
segments together consume exactly the first (len / nf) * nf samples of the
block. -/
theorem segmentBlock_spec (nf : ℕ) (w : Qc) (b : List Qc)
    (st : (Fin nf → ℚ) × ℕ) (hpos : 0 < nf) (hgt : nf < b.length) :
    (segmentBlock nf b).length = b.length / nf ∧
    (∀ s ∈ segmentBlock nf b, s.length = nf) ∧
    (segmentBlock nf b).flatten = b.take (b.length / nf * nf) ∧
    (feed nf w st b).2 = st.2 + b.length / nf := by
  refine ⟨?_, segmentBlock_full nf b hpos, ?_, ?_⟩
  · unfold segmentBlock
    simp
  · unfold segmentBlock
    exact segmentBlock_join nf b (b.length / nf) (Nat.div_mul_le_self _ _)
  · unfold feed
    rw [(vecMean_foldl _ st).1]
    simp [segmentBlock]

/-- Concrete instance of C8: a five-sample block with fft_length 2 gives two
full segments, discards the fifth sample, and advances the count by two. -/
theorem segmentBlock_spec_witness :
    (segmentBlock 2 [⟨1, 0⟩, ⟨2, 0⟩, ⟨3, 0⟩, ⟨4, 0⟩, ⟨5, 0⟩]).length =
      ([⟨1, 0⟩, ⟨2, 0⟩, ⟨3, 0⟩, ⟨4, 0⟩, (⟨5, 0⟩ : Qc)]).length / 2 ∧
    (∀ s ∈ segmentBlock 2 [⟨1, 0⟩, ⟨2, 0⟩, ⟨3, 0⟩, ⟨4, 0⟩, ⟨5, 0⟩],
      s.length = 2) ∧
    (segmentBlock 2 [⟨1, 0⟩, ⟨2, 0⟩, ⟨3, 0⟩, ⟨4, 0⟩, ⟨5, 0⟩]).flatten =
      ([⟨1, 0⟩, ⟨2, 0⟩, ⟨3, 0⟩, ⟨4, 0⟩, (⟨5, 0⟩ : Qc)]).take
        (([⟨1, 0⟩, ⟨2, 0⟩, ⟨3, 0⟩, ⟨4, 0⟩, (⟨5, 0⟩ : Qc)]).length / 2 * 2) ∧
    (feed 2 ⟨0, 1⟩ (fun _ => 0, 0)
        [⟨1, 0⟩, ⟨2, 0⟩, ⟨3, 0⟩, ⟨4, 0⟩, ⟨5, 0⟩]).2 =
      (((fun _ => 0, 0) : (Fin 2 → ℚ) × ℕ)).2 +
        ([⟨1, 0⟩, ⟨2, 0⟩, ⟨3, 0⟩, ⟨4, 0⟩, (⟨5, 0⟩ : Qc)]).length / 2 :=
  segmentBlock_spec 2 ⟨0, 1⟩ [⟨1, 0⟩, ⟨2, 0⟩, ⟨3, 0⟩, ⟨4, 0⟩, ⟨5, 0⟩]
    (fun _ => 0, 0) (by norm_num) (by simp)

/-- C9: with fft_length = block_size and exactly one block, accumulate
produces exactly the direct single-block computation — the magnitude-squared
DFT normalized by fft_length and frequency-shifted so bin 0 maps to
center_freq - rate / 2, with its frequency axis — and a count of one: the
running-mean machinery introduces no change to a single periodogram. -/
theorem accumulate_single_block (nf : ℕ) (w : Qc) (rate center : ℚ)
    (b : List Qc) (hpos : 0 < nf) (hlen : b.length = nf) :
    accumulate nf w rate center [b] =
      ((directSpectrum nf w rate center b).1,
       (directSpectrum nf w rate center b).2, 1) := by
  unfold accumulate directSpectrum
  simp only [List.foldl_cons, List.foldl_nil]
  unfold feed
  rw [segmentBlock_self nf b hpos hlen]
  simp only [List.map_cons, List.map_nil, List.foldl_cons, List.foldl_nil,
    vecMeanStep, Prod.mk.injEq]
  refine ⟨trivial, ?_, trivial⟩
  funext k
  simp

/-- Concrete instance of C9 at fft_length = block_size = 1. -/
theorem accumulate_single_block_witness :
    0 < 1 ∧ ([(⟨3, 4⟩ : Qc)]).length = 1 ∧
      accumulate 1 ⟨0, 1⟩ 8 100 [[⟨3, 4⟩]] =
        ((directSpectrum 1 ⟨0, 1⟩ 8 100 [⟨3, 4⟩]).1,
         (directSpectrum 1 ⟨0, 1⟩ 8 100 [⟨3, 4⟩]).2, 1) :=
  ⟨Nat.one_pos, rfl,
    accumulate_single_block 1 ⟨0, 1⟩ 8 100 [⟨3, 4⟩] Nat.one_pos rfl⟩

lemma feed_count (nf : ℕ) (w : Qc) (st : (Fin nf → ℚ) × ℕ) (b : List Qc) :
    (feed nf w st b).2 = st.2 + b.length / nf := by
  unfold feed
  rw [(vecMean_foldl _ st).1]
  simp [segmentBlock]

lemma accumulate_count (nf : ℕ) (w : Qc) :
    ∀ (blocks : List (List Qc)) (st : (Fin nf → ℚ) × ℕ),
      (blocks.foldl (feed nf w) st).2 =
        st.2 + (blocks.map (fun b => b.length / nf)).sum := by
  intro blocks
  induction blocks with
  | nil =>
    intro st
    simp
  | cons b bs ih =>
    intro st
    simp only [List.foldl_cons, List.map_cons, List.sum_cons]
    rw [ih, feed_count]
    omega

/-- C7: short reads are treated as valid blocks by both loops: the
PowerIntegrator raises no error and pads nothing — the returned sample count
and elapsed time are exactly the sums over the consumed blocks' actual
lengths and read times, even when some block is shorter than the n samples
requested — and the SpectralAccumulator likewise accepts every short block,
its returned periodogram count being exactly the sum over the actual block
lengths of floor(length / fft_length). -/
theorem short_reads_valid (d : ℚ) (n nf : ℕ) (w : Qc) (rate center : ℚ)
    (blocks : List (List Qc × ℚ)) (est : PowerEstimate)
    (specBlocks : List (List Qc))
    (hshortPow : ∀ x ∈ blocks, x.1.length ≤ n)
    (hshortSpec : ∀ b ∈ specBlocks, b.length ≤ n)
    (h : integrate_total_power d ⟨0, 0, 0⟩ blocks = some est) :
    (∃ p q, blocks = p ++ q ∧
      est.samples_integrated = (p.map (fun x => x.1.length)).sum ∧
      est.elapsed = (p.map (fun x => x.2)).sum) ∧
    (accumulate nf w rate center specBlocks).2.2 =
      (specBlocks.map (fun b => b.length / nf)).sum := by
  constructor
  · obtain ⟨p, q, hpq, hcount, helap⟩ :=
      integrate_consumed d blocks ⟨0, 0, 0⟩ est h
    exact ⟨p, q, hpq, by simpa using hcount, by simpa using helap⟩
  · show (specBlocks.foldl (feed nf w) (fun _ => 0, 0)).2 = _
    rw [accumulate_count]
    simp

/-- Concrete instance of C7: a power trace with a 1-sample short read (4
requested) counted exactly in the returned estimate, and a spectral trace
whose second block (1 sample) is shorter than fft_length 2, contributing
exactly floor(1 / 2) = 0 periodograms. -/
theorem short_reads_valid_witness :
    (∃ p q, [([⟨1, 0⟩, ⟨0, 1⟩], 1), ([(⟨2, 0⟩ : Qc)], (3 : ℚ))] = p ++ q ∧
      (PowerEstimate.mk 2 3 4).samples_integrated =
        (p.map (fun x => x.1.length)).sum ∧
      (PowerEstimate.mk 2 3 4).elapsed = (p.map (fun x => x.2)).sum) ∧
    (accumulate 2 ⟨0, 1⟩ 8 100 [[⟨1, 0⟩, ⟨2, 0⟩, ⟨3, 0⟩], [⟨4, 0⟩]]).2.2 =
      (([[⟨1, 0⟩, ⟨2, 0⟩, ⟨3, 0⟩], [(⟨4, 0⟩ : Qc)]] : List (List Qc)).map
        (fun b => b.length / 2)).sum :=
  short_reads_valid 3 4 2 ⟨0, 1⟩ 8 100
    [([⟨1, 0⟩, ⟨0, 1⟩], 1), ([⟨2, 0⟩], 3)] ⟨2, 3, 4⟩
    [[⟨1, 0⟩, ⟨2, 0⟩, ⟨3, 0⟩], [⟨4, 0⟩]] (by decide) (by decide)
    (by norm_num [integrate_total_power, integrateStep, Qc.normSq])

/-- Modelled from the spec: the overlap-region shift-and-subtract of the
Folder (§4.4); the post-process module is not present under src.  Spectra are
bin-indexed through a total function on ℤ with meaningful bins 0..L-1; the
folded spectrum keeps exactly the overlap region after shifting,
folded[i] = spectrum_a[i] - spectrum_b[i - shift] for the bins i with both i
and i - shift inside 0..L-1, listed in ascending bin order; bins outside the
overlap are dropped, not marked. -/
def foldRegion (L : ℕ) (A B : ℤ → ℚ) (s : ℤ) : List ℚ :=
  (List.range (min (L : ℤ) ((L : ℤ) + s) - max 0 s).toNat).map
    (fun k => A (max 0 s + k) - B (max 0 s + k - s))

/-- Modelled from the spec: `fold` (Folder, §4.4): a shift of zero bins is
diagnosed as a configuration error (`none`, the two setpoints being
indistinguishable within the frequency resolution); otherwise the folded
overlap region is returned. -/
def fold (L : ℕ) (A B : ℤ → ℚ) (s : ℤ) : Option (List ℚ) :=
  if s = 0 then none else some (foldRegion L A B s)

/-- Modelled from the spec: the bin shift of the frequency-switched pipeline
(§4.3, §4.4): shift_bins is derived from the setpoint separation
freq_b - freq_a and the bin width sample_rate / fft_length; the collect
module is not present under src. -/
def shiftBins (freq_a freq_b rate : ℚ) (nf : ℕ) : ℤ :=
  round ((freq_b - freq_a) / (rate / nf))

/-- Modelled from the spec: the folding stage of `run_switched` (§4.3, §4.4,
§7): the shift is derived from the two frequency setpoints and validated by
fold before any data is touched, surfacing a configuration error (`none`) on
a zero shift instead of an all-zero folded spectrum. -/
def runSwitchedFold (nf : ℕ) (rate freq_a freq_b : ℚ) (A B : ℤ → ℚ) :
    Option (List ℚ) :=
  fold nf A B (shiftBins freq_a freq_b rate nf)

lemma foldRegion_antisymm (L : ℕ) (A B : ℤ → ℚ) (s : ℤ) :
    foldRegion L A B s = (foldRegion L B A (-s)).map (fun x => -x) := by
  unfold foldRegion
  rw [List.map_map]
  have hn : (min (L : ℤ) ((L : ℤ) + s) - max 0 s).toNat =
      (min (L : ℤ) ((L : ℤ) + -s) - max 0 (-s)).toNat := by omega
  rw [hn]
  apply List.map_congr_left
  intro k hk
  have h1 : (max 0 s : ℤ) + k = max 0 (-s) + k - -s := by omega
  have h2 : (max 0 s : ℤ) + k - s = max 0 (-s) + k := by omega
  simp only [Function.comp]
  rw [h2, h1]
  ring

/-- C4: folding is anti-symmetric under swapping the two phase spectra and
negating shift_bins: over the aligned overlap region, fold(A, B, s) is the
bin-wise negation of fold(B, A, -s) (and the two error cases coincide). -/
theorem fold_antisymm (L : ℕ) (A B : ℤ → ℚ) (s : ℤ) :
    fold L A B s = (fold L B A (-s)).map (List.map (fun x => -x)) := by
  unfold fold
  rcases eq_or_ne s 0 with rfl | hs
  · simp
  · have hs2 : -s ≠ 0 := by omega
    rw [if_neg hs, if_neg hs2]
    simp only [Option.map_some']
    rw [foldRegion_antisymm]

/-- C6: a shift of zero bins is diagnosed as a configuration error by fold,
and in particular the frequency-switched pipeline with freq_a = freq_b
(setpoint separation below one bin width) surfaces the error rather than
silently returning an all-zero folded spectrum. -/
theorem fold_zero_shift_error :
    (∀ (L : ℕ) (A B : ℤ → ℚ), fold L A B 0 = none) ∧
    (∀ (nf : ℕ) (rate f : ℚ) (A B : ℤ → ℚ),
      runSwitchedFold nf rate f f A B = none) := by
  constructor
  · intro L A B
    simp [fold]
  · intro nf rate f A B
    unfold runSwitchedFold shiftBins
    simp [fold]
